import Mathlib

/-!
# cihttp: case-insensitive static file server

A shallow embedding of `main.go` (`resolveComponent`, `serveFile`) together with the
Go library primitives they call (`strings`, `path/filepath`, `sort`, the LRU cache and the
filesystem), followed by the properties of the resolution algorithm.
-/

namespace Cihttp

/-! ## Go strings: `strings.ToLower`, `strings.EqualFold`, `strings.Split`, `strings.TrimSuffix` -/

/-- The Unicode case tables of Go's package `unicode`, which `strings.ToLower` and
`strings.EqualFold` consult. They are not part of the repository and are taken as a parameter:
`lower` is `unicode.ToLower`, `fold` sends a rune to the representative of its
`unicode.SimpleFold` orbit. -/
structure CaseTables where
  lower : Char → Char
  fold : Char → Char

/-- `strings.ToLower`: every rune mapped through `unicode.ToLower`. -/
def toLower (T : CaseTables) (s : String) : String :=
  ⟨s.data.map T.lower⟩

/-- `strings.EqualFold`: the two strings have the same number of runes and corresponding
runes lie in the same simple-folding orbit. -/
def equalFold (T : CaseTables) (s t : String) : Bool :=
  s.data.map T.fold == t.data.map T.fold

/-- `strings.Split(s, "/")` on the runes of `s`: the pieces between separators; never empty. -/
def splitSep : List Char → List (List Char)
  | [] => [[]]
  | c :: cs =>
    if c = '/' then [] :: splitSep cs
    else
      match splitSep cs with
      | [] => [[c]]
      | h :: t => (c :: h) :: t

/-- `strings.Split(s, string(filepath.Separator))`. -/
def stringsSplit (s : String) : List String :=
  (splitSep s.data).map String.mk

/-- `strings.TrimSuffix(s, "/")` on runes: one trailing separator is removed. -/
def trimSlash (s : List Char) : List Char :=
  if s.getLast? = some '/' then s.dropLast else s

/-- `strings.TrimSuffix(s, "/")`. -/
def trimSuffixSlash (s : String) : String :=
  ⟨trimSlash s.data⟩

/-! ## Go paths: `filepath.Clean`, `filepath.Join`, `filepath.Split` (Unix) -/

/-- The backtracking step of `filepath.Clean` for a `..` element, on the write index:
`for out.w > dotdot && !os.IsPathSeparator(out.index(out.w)) { out.w-- }`. -/
def backtrackIndex (out : List Char) (dotdot : Nat) : Nat → Nat
  | 0 => 0
  | w + 1 =>
    if dotdot < w + 1 ∧ out.get? (w + 1) ≠ some '/' then backtrackIndex out dotdot w
    else w + 1

/-- `out.w--` followed by the backtracking loop; the buffer is cut at the new write index. -/
def backtrack (out : List Char) (dotdot : Nat) : List Char :=
  out.take (backtrackIndex out dotdot (out.length - 1))

/-- True when the input stands at the end of a path element: `r == n` or `path[r]` is a
separator. -/
def atElemEnd : List Char → Bool
  | [] => true
  | c :: _ => c == '/'

/-- The main loop of `filepath.Clean`. Arguments: the unread input `path[r:]`, whether the loop
is inside the inner "copy element" loop, the index `dotdot`, and the output buffer. -/
def cleanLoop (rooted : Bool) : List Char → Bool → Nat → List Char → List Char
  | [], _, _, out => out
  | c :: rest, true, dotdot, out =>
    if c = '/' then cleanLoop rooted rest false dotdot out
    else cleanLoop rooted rest true dotdot (out ++ [c])
  | [c], false, _, out =>
    if c = '/' then out
    else if c = '.' then out
    else
      let out1 := if (rooted && out.length != 1) || (!rooted && out.length != 0)
        then out ++ ['/'] else out
      out1 ++ [c]
  | c :: c2 :: rest2, false, dotdot, out =>
    if c = '/' then cleanLoop rooted (c2 :: rest2) false dotdot out
    else if c = '.' ∧ c2 = '/' then cleanLoop rooted (c2 :: rest2) false dotdot out
    else if c = '.' ∧ c2 = '.' ∧ atElemEnd rest2 = true then
      if dotdot < out.length then cleanLoop rooted rest2 false dotdot (backtrack out dotdot)
      else if rooted = false then
        let out1 := if 0 < out.length then out ++ ['/'] else out
        let out2 := out1 ++ ['.', '.']
        cleanLoop rooted rest2 false out2.length out2
      else cleanLoop rooted rest2 false dotdot out
    else
      let out1 := if (rooted && out.length != 1) || (!rooted && out.length != 0)
        then out ++ ['/'] else out
      cleanLoop rooted (c2 :: rest2) true dotdot (out1 ++ [c])

/-- `filepath.Clean` on runes. -/
def cleanChars (path : List Char) : List Char :=
  match path with
  | [] => ['.']
  | c :: rest =>
    let out := if c = '/' then cleanLoop true rest false 1 ['/']
      else cleanLoop false (c :: rest) false 0 []
    if out = [] then ['.'] else out

/-- `filepath.Clean`. -/
def Clean (path : String) : String :=
  ⟨cleanChars path.data⟩

/-- `filepath.Join(a, b)`: the elements from the first non-empty one on, joined with the
separator and cleaned; the empty string when both are empty. -/
def Join (a b : String) : String :=
  if a ≠ "" then Clean ⟨a.data ++ '/' :: b.data⟩
  else if b ≠ "" then Clean b
  else ""

/-- `filepath.Split`: scanning back from the end while the byte is not a separator; the
directory part keeps its final separator. -/
def Split (path : String) : String × String :=
  (⟨path.data.rdropWhile (fun c => c != '/')⟩, ⟨path.data.rtakeWhile (fun c => c != '/')⟩)

/-! ## `sort.Strings` -/

/-- Lexicographic comparison `a ≤ b` of two rune sequences (the order of Go's `<` on strings:
UTF-8 keeps the order of the code points). -/
def lexLe : List Char → List Char → Bool
  | [], _ => true
  | _ :: _, [] => false
  | a :: as, b :: bs => decide (a < b) || (a == b && lexLe as bs)

/-- The order `sort.Strings` sorts by. -/
def nameLe (a b : String) : Prop :=
  lexLe a.data b.data = true

instance nameLeDecidable : DecidableRel nameLe :=
  fun a b => inferInstanceAs (Decidable (lexLe a.data b.data = true))

/-- `sort.Strings`: the names in increasing byte-wise lexicographic order. -/
def sortStrings (l : List String) : List String :=
  l.insertionSort nameLe

/-! ## The filesystem and the LRU cache -/

/-- Errors of the filesystem calls. -/
inductive FsError where
  | notExist
  | permission
  | io
  deriving DecidableEq, Repr

deriving instance DecidableEq for Except

/-- What `resolveComponent` reads of an `os.FileInfo`. -/
structure FileInfo where
  isDir : Bool
  deriving DecidableEq, Repr

/-- A fixed directory tree, seen through the two calls the server makes:
`godirwalk.ReadDirnames` (names in the order the filesystem returns them) and `os.Stat`. -/
structure FS where
  readDirnames : String → Except FsError (List String)
  stat : String → Except FsError FileInfo

/-- A filesystem call performed by the server. -/
inductive Call where
  | readDirnames (dirPath : String)
  | stat (path : String)
  deriving DecidableEq, Repr

/-- The bounded LRU cache of `github.com/hashicorp/golang-lru`: at most `size` entries, most
recently used first. -/
structure Cache where
  size : Nat
  entries : List (String × List String)
  deriving DecidableEq, Repr

/-- `lru.New(size)`. -/
def Cache.new (size : Nat) : Cache :=
  ⟨size, []⟩

/-- `Cache.Contains`: presence of the key, without touching recency. -/
def Cache.contains (c : Cache) (key : String) : Bool :=
  c.entries.any (fun e => e.1 == key)

/-- The value stored under a key. -/
def Cache.peek (c : Cache) (key : String) : Option (List String) :=
  (c.entries.find? (fun e => e.1 == key)).map Prod.snd

/-- `Cache.Get`: the value under the key, which becomes the most recently used entry. -/
def Cache.get (c : Cache) (key : String) : Option (List String × Cache) :=
  match c.peek key with
  | some v => some (v, ⟨c.size, (key, v) :: c.entries.filter (fun e => e.1 != key)⟩)
  | none => none

/-- `Cache.Add`: an existing key is updated and moved to the front; a new key is pushed to the
front and the oldest entry is removed when the size is exceeded. -/
def Cache.add (c : Cache) (key : String) (v : List String) : Cache :=
  if c.contains key then ⟨c.size, (key, v) :: c.entries.filter (fun e => e.1 != key)⟩
  else
    let l := (key, v) :: c.entries
    if c.size < l.length then ⟨c.size, l.dropLast⟩ else ⟨c.size, l⟩

/-! ## `resolveComponent` -/

/-- Lines 31–49: the child names of `dirPath`, from the cache under the lower-cased path when
present, else read, sorted and (with a cache) added. -/
def listChildren (T : CaseTables) (fs : FS) (cache : Option Cache) (dirPath : String) :
    Except FsError (List String) × Option Cache × List Call :=
  let key := toLower T dirPath
  let fresh : Except FsError (List String) × Option Cache × List Call :=
    match fs.readDirnames dirPath with
    | .error err => (.error err, cache, [Call.readDirnames dirPath])
    | .ok names =>
      let children := sortStrings names
      (.ok children, cache.map (fun c => c.add key children), [Call.readDirnames dirPath])
  match cache with
  | none => fresh
  | some c =>
    if c.contains key then
      match c.get key with
      | some (children, c') => (.ok children, some c', [])
      | none => fresh
    else fresh

/-- Lines 51–64: the scan of the child names. The result is `normSegment` (empty when no
child was selected) or the error of a failed `os.Stat`, with the stat calls made. -/
def scanChildren (T : CaseTables) (fs : FS) (dirPath childQuery : String)
    (predicate : FileInfo → Bool) : List String → Except FsError String × List Call
  | [] => (.ok "", [])
  | child :: rest =>
    if equalFold T child childQuery then
      let childPath := Join dirPath child
      match fs.stat childPath with
      | .error err => (.error err, [Call.stat childPath])
      | .ok fi =>
        if predicate fi then (.ok child, [Call.stat childPath])
        else
          let r := scanChildren T fs dirPath childQuery predicate rest
          (r.1, Call.stat childPath :: r.2)
    else scanChildren T fs dirPath childQuery predicate rest

/-- The result of one `resolveComponent` call: Go's `(string, error)` pair (`.ok ""` is
not-found), the cache afterwards and the filesystem calls made, in order. -/
structure Resolution where
  result : Except FsError String
  cache : Option Cache
  calls : List Call

/-- `server.resolveComponent`. -/
def resolveComponent (T : CaseTables) (fs : FS) (cache : Option Cache)
    (dirPath childQuery : String) (predicate : FileInfo → Bool) : Resolution :=
  match listChildren T fs cache dirPath with
  | (.error err, cache', calls) => ⟨.error err, cache', calls⟩
  | (.ok children, cache', calls) =>
    match scanChildren T fs dirPath childQuery predicate children with
    | (.error err, stats) => ⟨.error err, cache', calls ++ stats⟩
    | (.ok normSegment, stats) =>
      if normSegment = "" then ⟨.ok "", cache', calls ++ stats⟩
      else ⟨.ok (Join dirPath normSegment), cache', calls ++ stats⟩

/-! ## `serveFile` -/

/-- What `serveFile` answers: a status written with `WriteHeader`, or the hand-over of the
resolved path to `http.ServeFile`. -/
inductive Response where
  | internalServerError (err : FsError)
  | notFound
  | serveFile (name : String)
  deriving DecidableEq, Repr

/-- The outcome of handling one request. -/
structure Handled where
  response : Response
  cache : Option Cache
  calls : List Call

/-- The predicate of the directory loop: `fi.IsDir()`. -/
def isDirPredicate (fi : FileInfo) : Bool :=
  fi.isDir

/-- The predicate of the final segment: `!fi.IsDir()`. -/
def isFilePredicate (fi : FileInfo) : Bool :=
  !fi.isDir

/-- Lines 77–83: the directory segments and the final file segment of a request path. -/
def requestSegments (urlPath : String) : List String × String :=
  let path := Clean urlPath
  let (allDirs, file) := Split path
  let dirs := (stringsSplit (trimSuffixSlash allDirs)).drop 1
  (dirs, if file = "" then "index.html" else file)

/-- Lines 102–119: the final segment, resolved with the not-a-directory predicate. -/
def resolveFile (T : CaseTables) (fs : FS) (cache : Option Cache) (resolvedPath file : String) :
    Handled :=
  let r := resolveComponent T fs cache resolvedPath file isFilePredicate
  match r.result with
  | .error err => ⟨.internalServerError err, r.cache, r.calls⟩
  | .ok p =>
    if p = "" then ⟨.notFound, r.cache, r.calls⟩
    else ⟨.serveFile p, r.cache, r.calls⟩

/-- Lines 85–119: the loop over the directory segments, then the final segment. -/
def resolveFrom (T : CaseTables) (fs : FS) (file : String) :
    Option Cache → String → List String → Handled
  | cache, resolvedPath, [] => resolveFile T fs cache resolvedPath file
  | cache, resolvedPath, dirChild :: rest =>
    let r := resolveComponent T fs cache resolvedPath dirChild isDirPredicate
    match r.result with
    | .error err => ⟨.internalServerError err, r.cache, r.calls⟩
    | .ok p =>
      if p = "" then ⟨.notFound, r.cache, r.calls⟩
      else
        let h := resolveFrom T fs file r.cache p rest
        ⟨h.response, h.cache, r.calls ++ h.calls⟩

/-- The server: its root and its cache (`none` when caching is disabled). -/
structure Server where
  root : String
  cache : Option Cache

/-- `server.serveFile` on the request path `r.URL.Path`. -/
def serveFile (T : CaseTables) (fs : FS) (s : Server) (urlPath : String) : Handled :=
  let (dirs, file) := requestSegments urlPath
  resolveFrom T fs file s.cache s.root dirs

/-! ## Vocabulary of the statements -/

/-- A resolution step of a request: the segment looked up and the type predicate applied. -/
abbrev Step := String × (FileInfo → Bool)

/-- The steps of a request in order: each directory segment with the is-directory predicate,
then the final segment with the not-a-directory predicate. -/
def requestSteps (dirs : List String) (file : String) : List Step :=
  dirs.map (fun d => (d, isDirPredicate)) ++ [(file, isFilePredicate)]

/-- Running steps one after another as long as each one succeeds (returns a non-empty path):
the cache, the directory reached and the calls made when all of them succeeded. -/
def walk (T : CaseTables) (fs : FS) :
    Option Cache → String → List Step → Option (Option Cache × String × List Call)
  | cache, dirPath, [] => some (cache, dirPath, [])
  | cache, dirPath, step :: rest =>
    let r := resolveComponent T fs cache dirPath step.1 step.2
    match r.result with
    | .error _ => none
    | .ok p =>
      if p = "" then none
      else
        match walk T fs r.cache p rest with
        | none => none
        | some (cache', dirPath', calls) => some (cache', dirPath', r.calls ++ calls)

/-- The request handler as the specification words it: the steps are performed in order from
a directory; the first step that returns an error ends the request with 500, the first that
returns not-found ends it with 404, and when none is left the path reached is served. -/
def runSteps (T : CaseTables) (fs : FS) : Option Cache → String → List Step → Handled
  | cache, dirPath, [] => ⟨.serveFile dirPath, cache, []⟩
  | cache, dirPath, step :: rest =>
    let r := resolveComponent T fs cache dirPath step.1 step.2
    match r.result with
    | .error err => ⟨.internalServerError err, r.cache, r.calls⟩
    | .ok p =>
      if p = "" then ⟨.notFound, r.cache, r.calls⟩
      else
        let h := runSteps T fs r.cache p rest
        ⟨h.response, h.cache, r.calls ++ h.calls⟩

/-- A name as a directory listing holds it: not `.`, not `..`, and without a separator. -/
def goodName (n : String) : Prop :=
  n ≠ "." ∧ n ≠ ".." ∧ '/' ∉ n.data

instance goodNameDecidable : DecidablePred goodName :=
  fun n => inferInstanceAs (Decidable (n ≠ "." ∧ n ≠ ".." ∧ '/' ∉ n.data))

/-- Every name of every listing held by the cache is a good name. -/
def CacheGood (cache : Option Cache) : Prop :=
  ∀ c, cache = some c → ∀ e ∈ c.entries, ∀ n ∈ e.2, goodName n

/-- A descent from a directory by names: each name is an entry of the listing that
`resolveComponent` obtains (lines 31–49, from the cache or by a read) for the directory
reached so far, and the next directory is that one joined with the name. -/
inductive Descends (T : CaseTables) (fs : FS) : Option Cache → String → List String → String → Prop
  | here (c : Option Cache) (d : String) : Descends T fs c d [] d
  | step (c c' : Option Cache) (d : String) (children : List String) (calls : List Call)
      (n : String) (ns : List String) (d' : String) :
      listChildren T fs c d = (.ok children, c', calls) → n ∈ children →
      Descends T fs c' (Join d n) ns d' → Descends T fs c d (n :: ns) d'

/-- A descent by names through the directories of the tree itself: each name is an entry of
what `ReadDirnames` returns for the directory reached so far. -/
def ListedChain (fs : FS) : String → List String → Prop
  | _, [] => True
  | d, n :: ns => (∃ raw, fs.readDirnames d = .ok raw ∧ n ∈ raw) ∧ ListedChain fs (Join d n) ns

/-- The stat calls a scan makes while passing over `names`: one for each name equal to the
query ignoring case, in order. -/
def statCalls (T : CaseTables) (dirPath childQuery : String) (names : List String) : List Call :=
  (names.filter (fun c => equalFold T c childQuery)).map (fun c => Call.stat (Join dirPath c))

/-- Handling requests one after another, the cache of each being the one the previous left:
the responses in order. -/
def serveAll (T : CaseTables) (fs : FS) (root : String) :
    Option Cache → List String → List Response
  | _, [] => []
  | cache, urlPath :: rest =>
    let h := serveFile T fs ⟨root, cache⟩ urlPath
    h.response :: serveAll T fs root h.cache rest

/-- The case tables of Go restricted to the runes used in the examples below: the ASCII
letters, and the three runes outside ASCII whose case mappings reach an ASCII letter
(`U+0130` lower-cases to `i` and folds to nothing else; `U+017F` folds with `s`, `U+212A`
with `k`). Every other rune is left unchanged. -/
def goTables : CaseTables where
  lower := fun c =>
    if 'A' ≤ c ∧ c ≤ 'Z' then Char.ofNat (c.toNat + 32)
    else if c = '\u0130' then 'i'
    else c
  fold := fun c =>
    if 'A' ≤ c ∧ c ≤ 'Z' then Char.ofNat (c.toNat + 32)
    else if c = '\u017f' then 's'
    else if c = '\u212a' then 'k'
    else c

/-- A tree for the examples: root `/srv` with the directory `Docs` (holding `Readme.TXT` and
`index.html`) and the file `index.html`. -/
def fsDocs : FS where
  readDirnames := fun d =>
    if d = "/srv" then .ok ["index.html", "Docs"]
    else if d = "/srv/Docs" then .ok ["index.html", "Readme.TXT"]
    else .error .notExist
  stat := fun p =>
    if p = "/srv" ∨ p = "/srv/Docs" then .ok ⟨true⟩
    else if p = "/srv/index.html" ∨ p = "/srv/Docs/index.html" ∨ p = "/srv/Docs/Readme.TXT"
    then .ok ⟨false⟩
    else .error .notExist

/-- A tree with two names that differ only in case: under `/srv` the file `A` and the
directory `a` (holding `x.txt`); the filesystem lists `a` first. -/
def fsCase : FS where
  readDirnames := fun d =>
    if d = "/srv" then .ok ["a", "A"]
    else if d = "/srv/a" then .ok ["x.txt"]
    else .error .notExist
  stat := fun p =>
    if p = "/srv" ∨ p = "/srv/a" then .ok ⟨true⟩
    else if p = "/srv/A" ∨ p = "/srv/a/x.txt" then .ok ⟨false⟩
    else .error .notExist

/-- Calling `resolveComponent` again and again with the same arguments, each call on the cache
the previous one left: the call made after `n` earlier ones. -/
def resolveAgain (T : CaseTables) (fs : FS) (dirPath childQuery : String)
    (predicate : FileInfo → Bool) : Option Cache → Nat → Resolution
  | cache, 0 => resolveComponent T fs cache dirPath childQuery predicate
  | cache, n + 1 =>
    resolveAgain T fs dirPath childQuery predicate
      (resolveComponent T fs cache dirPath childQuery predicate).cache n

/-- A tree with two files that differ only in case: under `/srv` the files `a` and `A`, which
the filesystem lists in this order. -/
def fsTwins : FS where
  readDirnames := fun d => if d = "/srv" then .ok ["a", "A"] else .error .notExist
  stat := fun p =>
    if p = "/srv" then .ok ⟨true⟩
    else if p = "/srv/a" ∨ p = "/srv/A" then .ok ⟨false⟩
    else .error .notExist

/-- A tree with two sibling directories whose paths lower-case to the same string without
being equal ignoring case: under `/srv` the directory `I` (holding `a.txt`) and the directory
named by the rune `U+0130` (holding `b.txt`). -/
def fsDotted : FS where
  readDirnames := fun d =>
    if d = "/srv" then .ok ["İ", "I"]
    else if d = "/srv/I" then .ok ["a.txt"]
    else if d = "/srv/İ" then .ok ["b.txt"]
    else .error .notExist
  stat := fun p =>
    if p = "/srv" ∨ p = "/srv/I" ∨ p = "/srv/İ" then .ok ⟨true⟩
    else if p = "/srv/I/a.txt" ∨ p = "/srv/İ/b.txt" then .ok ⟨false⟩
    else .error .notExist

/-! ## Lemmas on the library primitives -/

theorem cleanChars_ne_nil (path : List Char) : cleanChars path ≠ [] := by
  unfold cleanChars
  cases path with
  | nil => simp
  | cons c rest =>
    simp only
    generalize (if c = '/' then cleanLoop true rest false 1 ['/']
      else cleanLoop false (c :: rest) false 0 []) = out
    split
    · simp
    · assumption

theorem Clean_ne_empty (path : String) : Clean path ≠ "" := by
  intro h
  have h1 : (Clean path).data = [] := by rw [h]
  exact cleanChars_ne_nil _ h1

theorem Join_ne_empty (a b : String) (hb : b ≠ "") : Join a b ≠ "" := by
  unfold Join
  split
  · exact Clean_ne_empty _
  · exact Clean_ne_empty _

theorem equalFold_congr (T : CaseTables) (q q' : String) (h : equalFold T q q' = true)
    (c : String) : equalFold T c q = equalFold T c q' := by
  unfold equalFold at *
  have h1 : q.data.map T.fold = q'.data.map T.fold := by simpa using h
  rw [h1]

theorem equalFold_empty (T : CaseTables) (q : String) (h : equalFold T "" q = true) :
    q = "" := by
  unfold equalFold at h
  have h1 : q.data = [] := by
    have h2 : ([] : List Char) = q.data.map T.fold := by simpa using h
    exact List.map_eq_nil_iff.mp h2.symm
  cases q
  simp_all

theorem lexLe_total (a b : List Char) : lexLe a b = true ∨ lexLe b a = true := by
  induction a generalizing b with
  | nil => left; rfl
  | cons x xs ih =>
    cases b with
    | nil => right; rfl
    | cons y ys =>
      simp only [lexLe, Bool.or_eq_true, decide_eq_true_eq, Bool.and_eq_true, beq_iff_eq]
      rcases lt_trichotomy x y with h | h | h
      · left; left; exact h
      · subst h
        rcases ih ys with h1 | h1
        · left; right; exact ⟨rfl, h1⟩
        · right; right; exact ⟨rfl, h1⟩
      · right; left; exact h

theorem lexLe_trans (a b c : List Char) :
    lexLe a b = true → lexLe b c = true → lexLe a c = true := by
  induction a generalizing b c with
  | nil => intro _ _; rfl
  | cons x xs ih =>
    cases b with
    | nil => intro h; simp [lexLe] at h
    | cons y ys =>
      cases c with
      | nil => intro _ h; simp [lexLe] at h
      | cons z zs =>
        simp only [lexLe, Bool.or_eq_true, decide_eq_true_eq, Bool.and_eq_true, beq_iff_eq]
        rintro (h1 | ⟨h1, h1'⟩) (h2 | ⟨h2, h2'⟩)
        · left; exact lt_trans h1 h2
        · left; exact h2 ▸ h1
        · left; exact h1 ▸ h2
        · right; exact ⟨h1.trans h2, ih ys zs h1' h2'⟩

theorem lexLe_antisymm (a b : List Char) :
    lexLe a b = true → lexLe b a = true → a = b := by
  induction a generalizing b with
  | nil =>
    cases b with
    | nil => intros; rfl
    | cons y ys => intro _ h; simp [lexLe] at h
  | cons x xs ih =>
    cases b with
    | nil => intro h; simp [lexLe] at h
    | cons y ys =>
      simp only [lexLe, Bool.or_eq_true, decide_eq_true_eq, Bool.and_eq_true, beq_iff_eq]
      rintro (h1 | ⟨h1, h1'⟩) (h2 | ⟨h2, h2'⟩)
      · exact absurd h1 (lt_asymm h2)
      · subst h2; exact absurd h1 (lt_irrefl _)
      · subst h1; exact absurd h2 (lt_irrefl _)
      · subst h1; rw [ih ys h1' h2']

instance nameLe_isTotal : IsTotal String nameLe :=
  ⟨fun a b => lexLe_total a.data b.data⟩

instance nameLe_isTrans : IsTrans String nameLe :=
  ⟨fun a b c => lexLe_trans a.data b.data c.data⟩

theorem nameLe_antisymm (a b : String) (h1 : nameLe a b) (h2 : nameLe b a) : a = b := by
  have := lexLe_antisymm a.data b.data h1 h2
  cases a; cases b; simp_all

theorem sortStrings_sorted (l : List String) : (sortStrings l).Sorted nameLe :=
  List.sorted_insertionSort nameLe l

theorem sortStrings_perm (l : List String) : (sortStrings l).Perm l :=
  List.perm_insertionSort nameLe l

theorem mem_sortStrings (l : List String) (c : String) : c ∈ sortStrings l ↔ c ∈ l :=
  (sortStrings_perm l).mem_iff

/-! ## Lemmas on the scan of `resolveComponent` -/

/-- Names that either differ from the query, or match it and fail the predicate after a
successful stat, are passed over; each matching one costs one stat call. -/
theorem scanChildren_skip (T : CaseTables) (fs : FS) (dirPath q : String)
    (p : FileInfo → Bool) (pre rest : List String)
    (hpre : ∀ x ∈ pre, equalFold T x q = true →
      ∃ fi, fs.stat (Join dirPath x) = .ok fi ∧ p fi = false) :
    scanChildren T fs dirPath q p (pre ++ rest) =
      ((scanChildren T fs dirPath q p rest).1,
        statCalls T dirPath q pre ++ (scanChildren T fs dirPath q p rest).2) := by
  induction pre with
  | nil => simp [statCalls]
  | cons x xs ih =>
    have ih1 := ih (fun y hy => hpre y (List.mem_cons_of_mem _ hy))
    by_cases hx : equalFold T x q = true
    · obtain ⟨fi, hfi, hp⟩ := hpre x (List.mem_cons_self _ _) hx
      rw [List.cons_append, scanChildren, ih1]
      simp [statCalls, hx, hfi, hp]
    · rw [List.cons_append, scanChildren, ih1]
      simp [statCalls, hx]

/-- The scan stops at the first name that matches the query and passes the predicate. -/
theorem scanChildren_first (T : CaseTables) (fs : FS) (dirPath q : String)
    (p : FileInfo → Bool) (pre post : List String) (c : String) (fi : FileInfo)
    (hpre : ∀ x ∈ pre, equalFold T x q = true →
      ∃ fi, fs.stat (Join dirPath x) = .ok fi ∧ p fi = false)
    (hc : equalFold T c q = true) (hfi : fs.stat (Join dirPath c) = .ok fi)
    (hp : p fi = true) :
    scanChildren T fs dirPath q p (pre ++ c :: post) =
      (.ok c, statCalls T dirPath q pre ++ [Call.stat (Join dirPath c)]) := by
  rw [scanChildren_skip T fs dirPath q p pre (c :: post) hpre]
  simp [scanChildren, hc, hfi, hp]

/-- When no name both matches and passes, the scan selects nothing. -/
theorem scanChildren_none (T : CaseTables) (fs : FS) (dirPath q : String)
    (p : FileInfo → Bool) (children : List String)
    (h : ∀ x ∈ children, equalFold T x q = true →
      ∃ fi, fs.stat (Join dirPath x) = .ok fi ∧ p fi = false) :
    scanChildren T fs dirPath q p children = (.ok "", statCalls T dirPath q children) := by
  have := scanChildren_skip T fs dirPath q p children [] h
  simpa [scanChildren] using this

/-- A list either has a first element satisfying a property, or none. -/
theorem first_or_none {α : Type} (P : α → Prop) (l : List α) :
    (∀ x ∈ l, ¬ P x) ∨ ∃ pre c post, l = pre ++ c :: post ∧ P c ∧ ∀ x ∈ pre, ¬ P x := by
  induction l with
  | nil => left; simp
  | cons a t ih =>
    by_cases ha : P a
    · right; exact ⟨[], a, t, rfl, ha, by simp⟩
    · rcases ih with h | ⟨pre, c, post, rfl, hc, hpre⟩
      · left
        intro x hx
        rcases List.mem_cons.mp hx with rfl | hx
        · exact ha
        · exact h x hx
      · right
        refine ⟨a :: pre, c, post, rfl, hc, ?_⟩
        intro x hx
        rcases List.mem_cons.mp hx with rfl | hx
        · exact ha
        · exact hpre x hx

/-- How `resolveComponent` is assembled from the listing and the scan. -/
theorem resolveComponent_eq (T : CaseTables) (fs : FS) (cache cache' : Option Cache)
    (dirPath q : String) (p : FileInfo → Bool) (children : List String) (calls stats : List Call)
    (n : String) (hl : listChildren T fs cache dirPath = (.ok children, cache', calls))
    (hs : scanChildren T fs dirPath q p children = (.ok n, stats)) :
    resolveComponent T fs cache dirPath q p =
      ⟨.ok (if n = "" then "" else Join dirPath n), cache', calls ++ stats⟩ := by
  unfold resolveComponent
  rw [hl]
  simp only [hs]
  split <;> rfl

/-- The listing step makes no stat call. -/
theorem listChildren_calls (T : CaseTables) (fs : FS) (cache : Option Cache) (dirPath : String) :
    (listChildren T fs cache dirPath).2.2 = [] ∨
      (listChildren T fs cache dirPath).2.2 = [Call.readDirnames dirPath] := by
  unfold listChildren
  cases cache with
  | none =>
    simp only
    cases fs.readDirnames dirPath <;> simp
  | some c =>
    simp only
    split
    · split
      · left; rfl
      · cases fs.readDirnames dirPath <;> simp
    · cases fs.readDirnames dirPath <;> simp

/-- A directory that can be read, with a cache that holds nothing else under its key, yields
its sorted listing. -/
theorem listChildren_of_read (T : CaseTables) (fs : FS) (cache : Option Cache)
    (dirPath : String) (raw : List String) (hread : fs.readDirnames dirPath = .ok raw)
    (hcache : ∀ c l, cache = some c → c.peek (toLower T dirPath) = some l → l = sortStrings raw) :
    ∃ cache' calls, listChildren T fs cache dirPath = (.ok (sortStrings raw), cache', calls) := by
  unfold listChildren
  cases cache with
  | none => simp [hread]
  | some c =>
    simp only [hread]
    split
    · cases hpk : c.peek (toLower T dirPath) with
      | none => simp [Cache.get, hpk]
      | some l =>
        have := hcache c l rfl hpk
        subst this
        simp [Cache.get, hpk]
    · simp

/-- The directory loop on a prefix of segments that all resolve continues with the rest. -/
theorem resolveFrom_append (T : CaseTables) (fs : FS) (file : String) (pre rest : List String)
    (c c' : Option Cache) (d d' : String) (calls : List Call)
    (hw : walk T fs c d (pre.map (fun x => (x, isDirPredicate))) = some (c', d', calls)) :
    resolveFrom T fs file c d (pre ++ rest) =
      ⟨(resolveFrom T fs file c' d' rest).response, (resolveFrom T fs file c' d' rest).cache,
        calls ++ (resolveFrom T fs file c' d' rest).calls⟩ := by
  induction pre generalizing c d calls with
  | nil =>
    simp only [List.map_nil, walk, Option.some.injEq, Prod.mk.injEq] at hw
    obtain ⟨rfl, rfl, rfl⟩ := hw
    simp
  | cons x xs ih =>
    simp only [List.map_cons, walk] at hw
    rw [List.cons_append, resolveFrom]
    cases hr : (resolveComponent T fs c d x isDirPredicate).result with
    | error e => simp [hr] at hw
    | ok p =>
      simp only [hr] at hw ⊢
      by_cases hp : p = ""
      · simp [hp] at hw
      · simp only [hp, if_false] at hw ⊢
        cases hw2 : walk T fs (resolveComponent T fs c d x isDirPredicate).cache p
            (xs.map (fun x => (x, isDirPredicate))) with
        | none => simp [hw2] at hw
        | some t =>
          obtain ⟨c2, d2, calls2⟩ := t
          simp only [hw2, Option.some.injEq, Prod.mk.injEq] at hw
          obtain ⟨rfl, rfl, rfl⟩ := hw
          rw [ih _ _ _ hw2]
          simp

/-! ## C7: a query that matches no child name -/

/-- C7. When the listing of a directory can be obtained (from the cache or by a read) and the
query equals none of its names ignoring case, `resolveComponent` returns not-found (the empty
string, no error) whatever the predicate, and makes no stat call; a request whose directory
loop reaches that directory and then meets that segment, as a directory segment or as the
final one, is answered 404. -/
theorem resolveComponent_no_match (T : CaseTables) (fs : FS) (cache : Option Cache)
    (dirPath q : String) (children : List String)
    (hl : (listChildren T fs cache dirPath).1 = .ok children)
    (hq : ∀ c ∈ children, equalFold T c q = false) :
    (∀ p, (resolveComponent T fs cache dirPath q p).result = .ok "" ∧
      ∀ path, Call.stat path ∉ (resolveComponent T fs cache dirPath q p).calls) ∧
    (∀ (s : Server) (urlPath : String) (pre rest : List String) (file : String)
        (calls : List Call),
      requestSegments urlPath = (pre ++ q :: rest, file) →
      walk T fs s.cache s.root (pre.map (fun x => (x, isDirPredicate)))
        = some (cache, dirPath, calls) →
      (serveFile T fs s urlPath).response = .notFound) ∧
    (∀ (s : Server) (urlPath : String) (dirs : List String) (calls : List Call),
      requestSegments urlPath = (dirs, q) →
      walk T fs s.cache s.root (dirs.map (fun x => (x, isDirPredicate)))
        = some (cache, dirPath, calls) →
      (serveFile T fs s urlPath).response = .notFound) := by
  have hscan : ∀ p, scanChildren T fs dirPath q p children = (.ok "", []) := by
    intro p
    have h := scanChildren_none T fs dirPath q p children
      (fun x hx hm => by rw [hq x hx] at hm; exact absurd hm (by simp))
    rw [h]
    have : children.filter (fun c => equalFold T c q) = [] := by
      rw [List.filter_eq_nil_iff]
      intro x hx
      simp [hq x hx]
    simp [statCalls, this]
  rcases hlc : listChildren T fs cache dirPath with ⟨l1, cache', calls'⟩
  have hl1 : l1 = .ok children := by simpa [hlc] using hl
  subst hl1
  have hres : ∀ p, resolveComponent T fs cache dirPath q p = ⟨.ok "", cache', calls'⟩ := by
    intro p
    rw [resolveComponent_eq T fs cache cache' dirPath q p children calls' [] "" hlc (hscan p)]
    simp
  have hcalls : ∀ path, Call.stat path ∉ calls' := by
    intro path hmem
    have h := listChildren_calls T fs cache dirPath
    rw [hlc] at h
    rcases h with h | h
    · simp only at h; rw [h] at hmem; simp at hmem
    · simp only at h; rw [h] at hmem; simp at hmem
  refine ⟨fun p => ?_, ?_, ?_⟩
  · rw [hres p]
    exact ⟨rfl, hcalls⟩
  · intro s urlPath pre rest file calls hseg hw
    unfold serveFile
    rw [hseg]
    simp only
    rw [resolveFrom_append T fs file pre (q :: rest) s.cache cache s.root dirPath calls hw]
    simp [resolveFrom, hres]
  · intro s urlPath dirs calls hseg hw
    unfold serveFile
    rw [hseg]
    simp only
    have := resolveFrom_append T fs q dirs [] s.cache cache s.root dirPath calls hw
    rw [List.append_nil] at this
    rw [this]
    simp [resolveFrom, resolveFile, hres]

/-- C7 at the request `/missing/path` on the example tree with the cache disabled: the root
lists `Docs` and `index.html`, neither equals `missing` ignoring case, and the answer is 404. -/
theorem resolveComponent_no_match_witness :
    (listChildren goTables fsDocs none "/srv").1 = .ok ["Docs", "index.html"] ∧
    (∀ c ∈ ["Docs", "index.html"], equalFold goTables c "missing" = false) ∧
    (resolveComponent goTables fsDocs none "/srv" "missing" isDirPredicate).result = .ok "" ∧
    (serveFile goTables fsDocs ⟨"/srv", none⟩ "/missing/path").response = .notFound :=
  ⟨by decide, by decide,
    ((resolveComponent_no_match goTables fsDocs none "/srv" "missing" ["Docs", "index.html"]
      (by decide) (by decide)).1 isDirPredicate).1,
    (resolveComponent_no_match goTables fsDocs none "/srv" "missing" ["Docs", "index.html"]
      (by decide) (by decide)).2.1 ⟨"/srv", none⟩ "/missing/path" [] [] "path" []
      (by decide) (by decide)⟩

/-! ## C2: what `resolveComponent` returns on a readable directory -/

/-- C2. For a readable directory `dirPath` (names non-empty, every stat of a child succeeding,
and the cache, if it holds the directory's key, holding its sorted listing), a query `q` and a
predicate `p`: `resolveComponent` returns without error, its path is non-empty exactly when
some child equals `q` ignoring case and satisfies `p`, a non-empty result is
`Join dirPath c` for such a child `c` in its on-disk spelling, and otherwise the result is the
empty string. -/
theorem resolveComponent_iff_child (T : CaseTables) (fs : FS) (cache : Option Cache)
    (dirPath q : String) (p : FileInfo → Bool) (raw : List String)
    (hread : fs.readDirnames dirPath = .ok raw)
    (hcache : ∀ c l, cache = some c → c.peek (toLower T dirPath) = some l → l = sortStrings raw)
    (hnames : ∀ c ∈ raw, c ≠ "")
    (hstat : ∀ c ∈ raw, ∃ fi, fs.stat (Join dirPath c) = .ok fi) :
    ∃ r, (resolveComponent T fs cache dirPath q p).result = .ok r ∧
      (r ≠ "" ↔ ∃ c ∈ raw, equalFold T c q = true ∧
        ∃ fi, fs.stat (Join dirPath c) = .ok fi ∧ p fi = true) ∧
      (r ≠ "" → ∃ c ∈ raw, equalFold T c q = true ∧
        (∃ fi, fs.stat (Join dirPath c) = .ok fi ∧ p fi = true) ∧ r = Join dirPath c) ∧
      ((¬ ∃ c ∈ raw, equalFold T c q = true ∧
        ∃ fi, fs.stat (Join dirPath c) = .ok fi ∧ p fi = true) → r = "") := by
  obtain ⟨cache', calls, hl⟩ := listChildren_of_read T fs cache dirPath raw hread hcache
  have hfail : ∀ x ∈ sortStrings raw,
      ¬ (equalFold T x q = true ∧ ∃ fi, fs.stat (Join dirPath x) = .ok fi ∧ p fi = true) →
      equalFold T x q = true → ∃ fi, fs.stat (Join dirPath x) = .ok fi ∧ p fi = false := by
    intro x hx hnot hm
    obtain ⟨fi, hfi⟩ := hstat x ((mem_sortStrings raw x).mp hx)
    refine ⟨fi, hfi, ?_⟩
    cases hp : p fi with
    | false => rfl
    | true => exact absurd ⟨hm, fi, hfi, hp⟩ hnot
  rcases first_or_none
    (fun c => equalFold T c q = true ∧ ∃ fi, fs.stat (Join dirPath c) = .ok fi ∧ p fi = true)
    (sortStrings raw) with hnone | ⟨pre, c, post, hsplit, hc, hpre⟩
  · have hs := scanChildren_none T fs dirPath q p (sortStrings raw)
      (fun x hx hm => hfail x hx (hnone x hx) hm)
    have hno : ¬ ∃ c ∈ raw, equalFold T c q = true ∧
        ∃ fi, fs.stat (Join dirPath c) = .ok fi ∧ p fi = true := by
      rintro ⟨c, hc, hcc⟩
      exact hnone c ((mem_sortStrings raw c).mpr hc) hcc
    refine ⟨"", ?_, ?_, ?_, ?_⟩
    · rw [resolveComponent_eq T fs cache cache' dirPath q p _ calls _ "" hl hs]
      simp
    · constructor
      · intro h; exact absurd rfl h
      · intro h; exact absurd h hno
    · intro h; exact absurd rfl h
    · intro _; rfl
  · obtain ⟨hcm, fi, hfi, hp⟩ := hc
    have hcmem : c ∈ raw := by
      apply (mem_sortStrings raw c).mp
      rw [hsplit]
      simp
    have hcne : c ≠ "" := hnames c hcmem
    have hs := scanChildren_first T fs dirPath q p pre post c fi
      (fun x hx hm => hfail x (by rw [hsplit]; simp [hx]) (hpre x hx) hm) hcm hfi hp
    rw [← hsplit] at hs
    have hex : ∃ c ∈ raw, equalFold T c q = true ∧
        ∃ fi, fs.stat (Join dirPath c) = .ok fi ∧ p fi = true :=
      ⟨c, hcmem, hcm, fi, hfi, hp⟩
    refine ⟨Join dirPath c, ?_, ?_, ?_, ?_⟩
    · rw [resolveComponent_eq T fs cache cache' dirPath q p _ calls _ c hl hs]
      simp [hcne]
    · constructor
      · intro _; exact hex
      · intro _; exact Join_ne_empty dirPath c hcne
    · intro _; exact ⟨c, hcmem, hcm, ⟨fi, hfi, hp⟩, rfl⟩
    · intro h; exact absurd hex h

/-- C2 on the example tree: `Docs` under `/srv` queried as `docs` with the directory
predicate resolves to `/srv/Docs`, in the spelling on disk. -/
theorem resolveComponent_iff_child_witness :
    ∃ r, (resolveComponent goTables fsDocs none "/srv" "docs" isDirPredicate).result = .ok r ∧
      (r ≠ "" ↔ ∃ c ∈ ["index.html", "Docs"], equalFold goTables c "docs" = true ∧
        ∃ fi, fsDocs.stat (Join "/srv" c) = .ok fi ∧ isDirPredicate fi = true) ∧
      (r ≠ "" → ∃ c ∈ ["index.html", "Docs"], equalFold goTables c "docs" = true ∧
        (∃ fi, fsDocs.stat (Join "/srv" c) = .ok fi ∧ isDirPredicate fi = true) ∧
        r = Join "/srv" c) ∧
      ((¬ ∃ c ∈ ["index.html", "Docs"], equalFold goTables c "docs" = true ∧
        ∃ fi, fsDocs.stat (Join "/srv" c) = .ok fi ∧ isDirPredicate fi = true) → r = "") :=
  resolveComponent_iff_child goTables fsDocs none "/srv" "docs" isDirPredicate
    ["index.html", "Docs"] (by decide) (by intro c l h; cases h) (by decide)
    (by
      intro c hc
      simp only [List.mem_cons, List.mem_singleton, List.not_mem_nil, or_false] at hc
      rcases hc with rfl | rfl
      · exact ⟨⟨false⟩, by decide⟩
      · exact ⟨⟨true⟩, by decide⟩)

/-! ## C3: a matching name that fails the predicate -/

/-- C3 fails as stated. Under `/srv` the sorted listing is `A`, `a`; the first name equal to
the query `a` ignoring case is the file `A`, which fails the directory predicate. The scan
does not stop there: it stats `a` as well and returns `/srv/a`, after two stat calls. -/
theorem resolveComponent_falls_through :
    sortStrings ["a", "A"] = ["A", "a"] ∧
    equalFold goTables "A" "a" = true ∧
    fsCase.stat (Join "/srv" "A") = .ok ⟨false⟩ ∧
    isDirPredicate ⟨false⟩ = false ∧
    (resolveComponent goTables fsCase none "/srv" "a" isDirPredicate).result = .ok "/srv/a" ∧
    (resolveComponent goTables fsCase none "/srv" "a" isDirPredicate).calls =
      [Call.readDirnames "/srv", Call.stat "/srv/A", Call.stat "/srv/a"] := by
  decide

/-- C3 as amended. With the listing `children` obtained for `dirPath`: the scan passes over
every name that equals the query ignoring case and fails the predicate, and returns the first
name in listing order that equals the query and satisfies it, after one stat call for each
matching name up to and including that one; it returns not-found only when every matching
name fails the predicate, after one stat call per matching name. -/
theorem resolveComponent_first_passing (T : CaseTables) (fs : FS) (cache : Option Cache)
    (dirPath q : String) (p : FileInfo → Bool) (children : List String)
    (hl : (listChildren T fs cache dirPath).1 = .ok children) :
    (∀ pre c post fi, children = pre ++ c :: post →
      (∀ x ∈ pre, equalFold T x q = true →
        ∃ fi, fs.stat (Join dirPath x) = .ok fi ∧ p fi = false) →
      equalFold T c q = true → fs.stat (Join dirPath c) = .ok fi → p fi = true → c ≠ "" →
      (resolveComponent T fs cache dirPath q p).result = .ok (Join dirPath c) ∧
      (resolveComponent T fs cache dirPath q p).calls =
        (listChildren T fs cache dirPath).2.2 ++
          (statCalls T dirPath q pre ++ [Call.stat (Join dirPath c)])) ∧
    ((∀ x ∈ children, equalFold T x q = true →
        ∃ fi, fs.stat (Join dirPath x) = .ok fi ∧ p fi = false) →
      (resolveComponent T fs cache dirPath q p).result = .ok "" ∧
      (resolveComponent T fs cache dirPath q p).calls =
        (listChildren T fs cache dirPath).2.2 ++ statCalls T dirPath q children) := by
  rcases hlc : listChildren T fs cache dirPath with ⟨l1, cache', calls'⟩
  have hl1 : l1 = .ok children := by simpa [hlc] using hl
  subst hl1
  constructor
  · intro pre c post fi hsplit hpre hc hfi hp hne
    have hs := scanChildren_first T fs dirPath q p pre post c fi hpre hc hfi hp
    rw [← hsplit] at hs
    rw [resolveComponent_eq T fs cache cache' dirPath q p children calls' _ c hlc hs]
    simp [hne]
  · intro hall
    have hs := scanChildren_none T fs dirPath q p children hall
    rw [resolveComponent_eq T fs cache cache' dirPath q p children calls' _ "" hlc hs]
    simp

/-- The amended C3 on the tree of the counterexample: `A` is passed over, `a` is returned. -/
theorem resolveComponent_first_passing_witness :
    (listChildren goTables fsCase none "/srv").1 = .ok ["A", "a"] ∧
    (resolveComponent goTables fsCase none "/srv" "a" isDirPredicate).result
      = .ok (Join "/srv" "a") ∧
    (resolveComponent goTables fsCase none "/srv" "a" isDirPredicate).calls =
      (listChildren goTables fsCase none "/srv").2.2 ++
        (statCalls goTables "/srv" "a" ["A"] ++ [Call.stat (Join "/srv" "a")]) :=
  ⟨by decide,
    (resolveComponent_first_passing goTables fsCase none "/srv" "a" isDirPredicate ["A", "a"]
      (by decide)).1 ["A"] "a" [] ⟨true⟩ (by decide)
      (by
        intro x hx _
        simp only [List.mem_singleton] at hx
        subst hx
        exact ⟨⟨false⟩, by decide⟩)
      (by decide) (by decide) (by decide) (by decide)⟩

/-! ## C6: a request path that ends in a separator -/

/-- C6 at the request `/Docs/` on the example tree, where `Docs/index.html` exists:
`filepath.Clean` removes the final separator, so the final segment is `Docs` and not empty,
no directory segment is left, `Docs` is looked up with the file predicate and the answer is
404. Only the path `/` itself gets the default document. -/
theorem serveFile_trailing_slash :
    Clean "/Docs/" = "/Docs" ∧
    requestSegments "/Docs/" = ([], "Docs") ∧
    fsDocs.stat "/srv/Docs/index.html" = .ok ⟨false⟩ ∧
    (serveFile goTables fsDocs ⟨"/srv", none⟩ "/Docs/").response = .notFound ∧
    (serveFile goTables fsDocs ⟨"/srv", none⟩ "/Docs/").calls =
      [Call.readDirnames "/srv", Call.stat "/srv/Docs"] ∧
    requestSegments "/" = ([], "index.html") ∧
    (serveFile goTables fsDocs ⟨"/srv", none⟩ "/").response = .serveFile "/srv/index.html" := by
  decide

/-! ## C4: the cache against the uncached server -/

/-- C4 at two requests on the tree with the directories `I` and `U+0130`. Both directory paths
lower-case to `/srv/i`, so the second request finds under its key the listing of the other
directory: with a cache of 128 entries it is answered 404, with the cache disabled it is
served. -/
theorem serveAll_cache_differs :
    toLower goTables "/srv/I" = toLower goTables "/srv/İ" ∧
    equalFold goTables "I" "İ" = false ∧
    serveAll goTables fsDotted "/srv" (some (Cache.new 128)) ["/I/a.txt", "/İ/b.txt"] =
      [.serveFile "/srv/I/a.txt", .notFound] ∧
    serveAll goTables fsDotted "/srv" none ["/I/a.txt", "/İ/b.txt"] =
      [.serveFile "/srv/I/a.txt", .serveFile "/srv/İ/b.txt"] := by
  decide

/-! ## Lemmas on the cache -/

theorem Cache.contains_of_peek (c : Cache) (key : String) (v : List String)
    (h : c.peek key = some v) : c.contains key = true := by
  unfold Cache.peek at h
  unfold Cache.contains
  cases hf : c.entries.find? (fun e => e.1 == key) with
  | none => simp [hf] at h
  | some e =>
    rw [List.any_eq_true]
    have hp : (fun e : String × List String => e.1 == key) e = true :=
      List.find?_some (p := fun e : String × List String => e.1 == key) hf
    exact ⟨e, List.mem_of_find?_eq_some hf, hp⟩

theorem Cache.peek_front (size : Nat) (key : String) (v : List String)
    (rest : List (String × List String)) :
    (Cache.mk size ((key, v) :: rest)).peek key = some v := by
  simp [Cache.peek]

theorem Cache.peek_add (c : Cache) (key : String) (v : List String) (hsize : 0 < c.size) :
    (c.add key v).peek key = some v ∧ (c.add key v).size = c.size := by
  unfold Cache.add
  split
  · exact ⟨Cache.peek_front _ _ _ _, rfl⟩
  · simp only
    split
    · rename_i hlen
      cases hent : c.entries with
      | nil =>
        rw [hent] at hlen
        simp at hlen
        omega
      | cons e es =>
        refine ⟨?_, rfl⟩
        simp [List.dropLast, Cache.peek]
    · exact ⟨Cache.peek_front _ _ _ _, rfl⟩

theorem Cache.size_add (c : Cache) (key : String) (v : List String) :
    (c.add key v).size = c.size := by
  unfold Cache.add
  split
  · rfl
  · simp only
    split <;> rfl

/-- The listing step on a readable directory whose cache entry, if any, is its sorted listing:
the sorted listing is returned; a cache stays a cache of the same size and, when its size is
positive, holds the listing afterwards; a hit makes no filesystem call. -/
theorem listChildren_state (T : CaseTables) (fs : FS) (cache : Option Cache)
    (dirPath : String) (raw : List String) (hread : fs.readDirnames dirPath = .ok raw)
    (hcache : ∀ c l, cache = some c → c.peek (toLower T dirPath) = some l → l = sortStrings raw) :
    ∃ cache' calls, listChildren T fs cache dirPath = (.ok (sortStrings raw), cache', calls) ∧
      (cache = none → cache' = none) ∧
      (∀ c, cache = some c → ∃ c', cache' = some c' ∧ c'.size = c.size ∧
        (0 < c.size → c'.peek (toLower T dirPath) = some (sortStrings raw))) ∧
      (∀ c, cache = some c → c.peek (toLower T dirPath) = some (sortStrings raw) →
        calls = []) := by
  unfold listChildren
  cases cache with
  | none => simp [hread]
  | some c =>
    simp only [hread, Option.map_some']
    have hfresh : ∀ c0, c = c0 → c0.contains (toLower T dirPath) = false →
        ∃ c', some (c.add (toLower T dirPath) (sortStrings raw)) = some c' ∧
          c'.size = c0.size ∧
          (0 < c0.size → c'.peek (toLower T dirPath) = some (sortStrings raw)) := by
      intro c0 hc0 _
      subst hc0
      exact ⟨_, rfl, Cache.size_add _ _ _, fun h => (Cache.peek_add _ _ _ h).1⟩
    by_cases hcon : c.contains (toLower T dirPath) = true
    · rw [if_pos hcon]
      cases hpk : c.peek (toLower T dirPath) with
      | none =>
        simp only [Cache.get, hpk]
        refine ⟨_, _, rfl, by simp, ?_, ?_⟩
        · intro c0 hc0
          cases hc0
          exact ⟨_, rfl, Cache.size_add _ _ _, fun h => (Cache.peek_add _ _ _ h).1⟩
        · intro c0 hc0 hp
          cases hc0
          rw [hpk] at hp
          cases hp
      | some l =>
        have hl := hcache c l rfl hpk
        subst hl
        simp only [Cache.get, hpk]
        refine ⟨_, _, rfl, by simp, ?_, ?_⟩
        · intro c0 hc0
          cases hc0
          exact ⟨_, rfl, rfl, fun _ => Cache.peek_front _ _ _ _⟩
        · intro _ _ _
          rfl
    · rw [if_neg hcon]
      refine ⟨_, _, rfl, by simp, ?_, ?_⟩
      · intro c0 hc0
        cases hc0
        exact hfresh c rfl (by simpa using hcon)
      · intro c0 hc0 hp
        cases hc0
        exact absurd (Cache.contains_of_peek _ _ _ hp) hcon

/-! ## C9: several names equal to the query -/

/-- In a sorted listing the scan selects the smallest of the names equal to the query, when
all of them satisfy the predicate; it makes stat calls only. -/
theorem scanChildren_sorted_min (T : CaseTables) (fs : FS) (dirPath q : String)
    (p : FileInfo → Bool) (children : List String) (m : String)
    (hsorted : children.Sorted nameLe)
    (hall : ∀ c ∈ children, equalFold T c q = true →
      ∃ fi, fs.stat (Join dirPath c) = .ok fi ∧ p fi = true)
    (hm : m ∈ children) (hmq : equalFold T m q = true)
    (hmin : ∀ c ∈ children, equalFold T c q = true → nameLe m c) :
    ∃ stats, scanChildren T fs dirPath q p children = (.ok m, stats) ∧
      ∀ d, Call.readDirnames d ∉ stats := by
  rcases first_or_none (fun c => equalFold T c q = true) children with
    hnone | ⟨pre, c, post, hsplit, hc, hpre⟩
  · exact absurd hmq (hnone m hm)
  · have hcmem : c ∈ children := by rw [hsplit]; simp
    have hcm : c = m := by
      have h1 : nameLe m c := hmin c hcmem hc
      rw [hsplit] at hm
      rcases List.mem_append.mp hm with h | h
      · exact absurd hmq (hpre m h)
      · rcases List.mem_cons.mp h with h | h
        · exact h.symm
        · have hs : (c :: post).Sorted nameLe := by
            rw [hsplit] at hsorted
            exact (List.pairwise_append.mp hsorted).2.1
          have h2 : nameLe c m := List.rel_of_sorted_cons hs m h
          exact nameLe_antisymm c m h2 h1
    subst hcm
    obtain ⟨fi, hfi, hp⟩ := hall c hcmem hc
    have hs := scanChildren_first T fs dirPath q p pre post c fi
      (fun x hx hm => absurd hm (hpre x hx)) hc hfi hp
    rw [← hsplit] at hs
    refine ⟨_, hs, ?_⟩
    intro d hd
    simp [statCalls] at hd

/-- One call of `resolveComponent` in the situation of C9, with what it leaves in the cache. -/
theorem resolveComponent_smallest (T : CaseTables) (fs : FS) (cache : Option Cache)
    (dirPath q : String) (p : FileInfo → Bool) (raw : List String) (m : String)
    (hread : fs.readDirnames dirPath = .ok raw)
    (hcache : ∀ c l, cache = some c → c.peek (toLower T dirPath) = some l → l = sortStrings raw)
    (hnames : ∀ c ∈ raw, c ≠ "")
    (hall : ∀ c ∈ raw, equalFold T c q = true →
      ∃ fi, fs.stat (Join dirPath c) = .ok fi ∧ p fi = true)
    (hm : m ∈ raw) (hmq : equalFold T m q = true)
    (hmin : ∀ c ∈ raw, equalFold T c q = true → nameLe m c) :
    (resolveComponent T fs cache dirPath q p).result = .ok (Join dirPath m) ∧
    (cache = none → (resolveComponent T fs cache dirPath q p).cache = none) ∧
    (∀ c, cache = some c → ∃ c', (resolveComponent T fs cache dirPath q p).cache = some c' ∧
      c'.size = c.size ∧
      (0 < c.size → c'.peek (toLower T dirPath) = some (sortStrings raw))) ∧
    (∀ c, cache = some c → c.peek (toLower T dirPath) = some (sortStrings raw) →
      ∀ d, Call.readDirnames d ∉ (resolveComponent T fs cache dirPath q p).calls) := by
  obtain ⟨cache', calls, hl, h1, h2, h3⟩ := listChildren_state T fs cache dirPath raw hread hcache
  obtain ⟨stats, hs, hstats⟩ := scanChildren_sorted_min T fs dirPath q p (sortStrings raw) m
    (sortStrings_sorted raw)
    (fun c hc => hall c ((mem_sortStrings raw c).mp hc))
    ((mem_sortStrings raw m).mpr hm) hmq
    (fun c hc => hmin c ((mem_sortStrings raw c).mp hc))
  rw [resolveComponent_eq T fs cache cache' dirPath q p _ calls stats m hl hs]
  refine ⟨by simp [hnames m hm], h1, h2, ?_⟩
  intro c hc hpk d hd
  rw [h3 c hc hpk] at hd
  exact hstats d (by simpa using hd)

/-- C9. When one or several names of a readable directory equal the query ignoring case and
all of them satisfy the predicate, `resolveComponent` returns `dirPath` joined with the
smallest of them in byte-wise lexicographic order. The hypotheses speak of the names of the
directory as a set, so the order in which the filesystem returned them plays no part. Every
repeated call returns the same result, and with a cache (of positive size) every call after
the first is answered from the cache, without reading the directory. -/
theorem resolveAgain_smallest (T : CaseTables) (fs : FS) (cache : Option Cache)
    (dirPath q : String) (p : FileInfo → Bool) (raw : List String) (m : String)
    (hread : fs.readDirnames dirPath = .ok raw)
    (hcache : ∀ c l, cache = some c → c.peek (toLower T dirPath) = some l → l = sortStrings raw)
    (hsize : ∀ c, cache = some c → 0 < c.size)
    (hnames : ∀ c ∈ raw, c ≠ "")
    (hall : ∀ c ∈ raw, equalFold T c q = true →
      ∃ fi, fs.stat (Join dirPath c) = .ok fi ∧ p fi = true)
    (hm : m ∈ raw) (hmq : equalFold T m q = true)
    (hmin : ∀ c ∈ raw, equalFold T c q = true → nameLe m c) (n : Nat) :
    (resolveAgain T fs dirPath q p cache n).result = .ok (Join dirPath m) ∧
    (cache ≠ none → 0 < n →
      ∀ d, Call.readDirnames d ∉ (resolveAgain T fs dirPath q p cache n).calls) := by
  have hhit : ∀ (k : Nat) (cache : Option Cache) (c : Cache), cache = some c → 0 < c.size →
      c.peek (toLower T dirPath) = some (sortStrings raw) →
      (resolveAgain T fs dirPath q p cache k).result = .ok (Join dirPath m) ∧
      ∀ d, Call.readDirnames d ∉ (resolveAgain T fs dirPath q p cache k).calls := by
    intro k
    induction k with
    | zero =>
      intro cache c hc _ hpk
      have h := resolveComponent_smallest T fs cache dirPath q p raw m hread
        (by
          intro c0 l h0 hl
          rw [hc] at h0
          cases h0
          rw [hpk] at hl
          cases hl
          rfl) hnames hall hm hmq hmin
      exact ⟨h.1, h.2.2.2 c hc hpk⟩
    | succ k ih =>
      intro cache c hc hpos hpk
      have h := resolveComponent_smallest T fs cache dirPath q p raw m hread
        (by
          intro c0 l h0 hl
          rw [hc] at h0
          cases h0
          rw [hpk] at hl
          cases hl
          rfl) hnames hall hm hmq hmin
      obtain ⟨c', hc', hsz, hpk'⟩ := h.2.2.1 c hc
      rw [resolveAgain]
      exact ih _ c' hc' (by omega) (hpk' hpos)
  cases n with
  | zero =>
    have h := resolveComponent_smallest T fs cache dirPath q p raw m hread hcache hnames hall
      hm hmq hmin
    exact ⟨h.1, fun _ h0 => absurd h0 (by simp)⟩
  | succ k =>
    have h := resolveComponent_smallest T fs cache dirPath q p raw m hread hcache hnames hall
      hm hmq hmin
    rw [resolveAgain]
    cases hcc : cache with
    | none =>
      have hnone : (resolveComponent T fs none dirPath q p).cache = none := by
        have := h.2.1 hcc
        rw [hcc] at this
        exact this
      rw [hnone]
      refine ⟨?_, fun h0 => absurd rfl h0⟩
      clear h hnone
      induction k with
      | zero =>
        exact (resolveComponent_smallest T fs none dirPath q p raw m hread
          (by intro c l h0; cases h0) hnames hall hm hmq hmin).1
      | succ j ih =>
        rw [resolveAgain]
        have hn := (resolveComponent_smallest T fs none dirPath q p raw m hread
          (by intro c l h0; cases h0) hnames hall hm hmq hmin).2.1 rfl
        rw [hn]
        exact ih
    | some c =>
      obtain ⟨c', hc', hsz, hpk'⟩ := h.2.2.1 c hcc
      have hpos := hsize c hcc
      rw [← hcc]
      have := hhit k _ c' hc' (by omega) (hpk' hpos)
      exact ⟨this.1, fun _ _ => this.2⟩

/-- C9 on the tree with the files `a` and `A`, listed in this order: the query `a` with the
file predicate resolves to `/srv/A` on the third call in a row, which reads no directory. -/
theorem resolveAgain_smallest_witness :
    (resolveAgain goTables fsTwins "/srv" "a" isFilePredicate (some (Cache.new 128)) 2).result
      = .ok (Join "/srv" "A") ∧
    (some (Cache.new 128) ≠ none → 0 < 2 →
      ∀ d, Call.readDirnames d ∉
        (resolveAgain goTables fsTwins "/srv" "a" isFilePredicate
          (some (Cache.new 128)) 2).calls) :=
  resolveAgain_smallest goTables fsTwins (some (Cache.new 128)) "/srv" "a" isFilePredicate
    ["a", "A"] "A" (by decide)
    (by
      intro c l h hp
      cases h
      simp [Cache.peek, Cache.new] at hp)
    (by
      intro c h
      cases h
      decide)
    (by decide)
    (by
      intro c hc _
      simp only [List.mem_cons, List.mem_singleton, List.not_mem_nil, or_false] at hc
      rcases hc with rfl | rfl
      · exact ⟨⟨false⟩, by decide⟩
      · exact ⟨⟨false⟩, by decide⟩)
    (by decide) (by decide) (by decide) 2

/-! ## C8: the status of a request -/

/-- The loop of `serveFile` followed by the final segment is the run of the request's steps. -/
theorem resolveFrom_eq_runSteps (T : CaseTables) (fs : FS) (file : String)
    (cache : Option Cache) (d : String) (dirs : List String) :
    resolveFrom T fs file cache d dirs = runSteps T fs cache d (requestSteps dirs file) := by
  induction dirs generalizing cache d with
  | nil =>
    simp only [resolveFrom, resolveFile, requestSteps, List.map_nil, List.nil_append, runSteps]
    cases (resolveComponent T fs cache d file isFilePredicate).result with
    | error e => rfl
    | ok p =>
      simp only
      split
      · rfl
      · simp
  | cons x xs ih =>
    simp only [resolveFrom, requestSteps, List.map_cons, List.cons_append, runSteps]
    cases (resolveComponent T fs cache d x isDirPredicate).result with
    | error e => rfl
    | ok p =>
      simp only
      split
      · rfl
      · rw [ih]
        rfl

/-- A run whose first steps all succeed continues from the state they reach. -/
theorem runSteps_append (T : CaseTables) (fs : FS) (pre rest : List Step)
    (c c' : Option Cache) (d d' : String) (calls : List Call)
    (hw : walk T fs c d pre = some (c', d', calls)) :
    runSteps T fs c d (pre ++ rest) =
      ⟨(runSteps T fs c' d' rest).response, (runSteps T fs c' d' rest).cache,
        calls ++ (runSteps T fs c' d' rest).calls⟩ := by
  induction pre generalizing c d calls with
  | nil =>
    simp only [walk, Option.some.injEq, Prod.mk.injEq] at hw
    obtain ⟨rfl, rfl, rfl⟩ := hw
    simp
  | cons x xs ih =>
    simp only [walk] at hw
    rw [List.cons_append, runSteps]
    cases hr : (resolveComponent T fs c d x.1 x.2).result with
    | error e => simp [hr] at hw
    | ok p =>
      simp only [hr] at hw ⊢
      by_cases hp : p = ""
      · simp [hp] at hw
      · simp only [hp, if_false] at hw ⊢
        cases hw2 : walk T fs (resolveComponent T fs c d x.1 x.2).cache p xs with
        | none => simp [hw2] at hw
        | some t =>
          obtain ⟨c2, d2, calls2⟩ := t
          simp only [hw2, Option.some.injEq, Prod.mk.injEq] at hw
          obtain ⟨rfl, rfl, rfl⟩ := hw
          rw [ih _ _ _ hw2]
          simp

/-- Every run either performs all its steps with success or has a first step that does not
succeed, after a prefix of steps that all did. -/
theorem walk_total (T : CaseTables) (fs : FS) (steps : List Step) (c : Option Cache)
    (d : String) :
    (∃ c' p calls, walk T fs c d steps = some (c', p, calls)) ∨
    (∃ pre step post c1 d1 calls1, steps = pre ++ step :: post ∧
      walk T fs c d pre = some (c1, d1, calls1) ∧
      ((resolveComponent T fs c1 d1 step.1 step.2).result = .ok "" ∨
        ∃ e, (resolveComponent T fs c1 d1 step.1 step.2).result = .error e)) := by
  induction steps generalizing c d with
  | nil => left; exact ⟨c, d, [], rfl⟩
  | cons x xs ih =>
    cases hr : (resolveComponent T fs c d x.1 x.2).result with
    | error e =>
      right
      exact ⟨[], x, xs, c, d, [], rfl, rfl, Or.inr ⟨e, hr⟩⟩
    | ok p =>
      by_cases hp : p = ""
      · right
        subst hp
        exact ⟨[], x, xs, c, d, [], rfl, rfl, Or.inl hr⟩
      · rcases ih (resolveComponent T fs c d x.1 x.2).cache p with
          ⟨c', p', calls, hw⟩ | ⟨pre, step, post, c1, d1, calls1, hsplit, hw, hfail⟩
        · left
          exact ⟨c', p', (resolveComponent T fs c d x.1 x.2).calls ++ calls, by
            simp [walk, hr, hp, hw]⟩
        · right
          refine ⟨x :: pre, step, post, c1, d1,
            (resolveComponent T fs c d x.1 x.2).calls ++ calls1, ?_, ?_, hfail⟩
          · rw [hsplit]; rfl
          · simp [walk, hr, hp, hw]

/-- What a run answers when all steps succeed, and when a step after a successful prefix
returns an error or not-found. -/
theorem runSteps_outcome (T : CaseTables) (fs : FS) (steps : List Step) (c : Option Cache)
    (d : String) :
    (∀ c' p calls, walk T fs c d steps = some (c', p, calls) →
      runSteps T fs c d steps = ⟨.serveFile p, c', calls⟩) ∧
    (∀ pre step post c1 d1 calls1, steps = pre ++ step :: post →
      walk T fs c d pre = some (c1, d1, calls1) →
      (∀ e, (resolveComponent T fs c1 d1 step.1 step.2).result = .error e →
        runSteps T fs c d steps = ⟨.internalServerError e,
          (resolveComponent T fs c1 d1 step.1 step.2).cache,
          calls1 ++ (resolveComponent T fs c1 d1 step.1 step.2).calls⟩) ∧
      ((resolveComponent T fs c1 d1 step.1 step.2).result = .ok "" →
        runSteps T fs c d steps = ⟨.notFound,
          (resolveComponent T fs c1 d1 step.1 step.2).cache,
          calls1 ++ (resolveComponent T fs c1 d1 step.1 step.2).calls⟩)) := by
  constructor
  · intro c' p calls hw
    have := runSteps_append T fs steps [] c c' d p calls hw
    rw [List.append_nil] at this
    rw [this]
    simp [runSteps]
  · intro pre step post c1 d1 calls1 hsplit hw
    have happ := runSteps_append T fs pre (step :: post) c c1 d d1 calls1 hw
    rw [← hsplit] at happ
    constructor
    · intro e he
      rw [happ]
      simp [runSteps, he]
    · intro he
      rw [happ]
      simp [runSteps, he]

theorem serveFile_eq_runSteps (T : CaseTables) (fs : FS) (s : Server) (urlPath : String) :
    serveFile T fs s urlPath =
      runSteps T fs s.cache s.root
        (requestSteps (requestSegments urlPath).1 (requestSegments urlPath).2) := by
  unfold serveFile
  rcases requestSegments urlPath with ⟨dirs, file⟩
  exact resolveFrom_eq_runSteps T fs file s.cache s.root dirs

/-- C8. The steps of a request are its directory segments, each with the is-directory
predicate, followed by the final segment with the not-a-directory predicate, performed in
this order from the root. `serveFile` hands a path to `http.ServeFile` exactly when every
step succeeded (and the path is the one the last step returned); it answers 500 exactly when
the first step that does not succeed returned an error, and 404 exactly when that step
returned not-found; in both cases the filesystem calls of the request are those of the steps
up to and including that one, and none after it. -/
theorem serveFile_status (T : CaseTables) (fs : FS) (s : Server) (urlPath : String) :
    (∀ p, (serveFile T fs s urlPath).response = .serveFile p ↔
      ∃ c calls, walk T fs s.cache s.root
        (requestSteps (requestSegments urlPath).1 (requestSegments urlPath).2)
          = some (c, p, calls)) ∧
    (∀ e, (serveFile T fs s urlPath).response = .internalServerError e ↔
      ∃ pre step post c d calls,
        requestSteps (requestSegments urlPath).1 (requestSegments urlPath).2
          = pre ++ step :: post ∧
        walk T fs s.cache s.root pre = some (c, d, calls) ∧
        (resolveComponent T fs c d step.1 step.2).result = .error e) ∧
    ((serveFile T fs s urlPath).response = .notFound ↔
      ∃ pre step post c d calls,
        requestSteps (requestSegments urlPath).1 (requestSegments urlPath).2
          = pre ++ step :: post ∧
        walk T fs s.cache s.root pre = some (c, d, calls) ∧
        (resolveComponent T fs c d step.1 step.2).result = .ok "") ∧
    (∀ pre step post c d calls,
      requestSteps (requestSegments urlPath).1 (requestSegments urlPath).2
        = pre ++ step :: post →
      walk T fs s.cache s.root pre = some (c, d, calls) →
      ((resolveComponent T fs c d step.1 step.2).result = .ok "" ∨
        ∃ e, (resolveComponent T fs c d step.1 step.2).result = .error e) →
      (serveFile T fs s urlPath).calls =
        calls ++ (resolveComponent T fs c d step.1 step.2).calls ∧
      (serveFile T fs s urlPath).cache = (resolveComponent T fs c d step.1 step.2).cache) ∧
    (∀ c p calls, walk T fs s.cache s.root
        (requestSteps (requestSegments urlPath).1 (requestSegments urlPath).2)
          = some (c, p, calls) →
      (serveFile T fs s urlPath).calls = calls ∧ (serveFile T fs s urlPath).cache = c) := by
  rw [serveFile_eq_runSteps]
  generalize requestSteps (requestSegments urlPath).1 (requestSegments urlPath).2 = steps
  have hout := runSteps_outcome T fs steps s.cache s.root
  have htot := walk_total T fs steps s.cache s.root
  refine ⟨?_, ?_, ?_, ?_, ?_⟩
  · intro p
    constructor
    · intro h
      rcases htot with ⟨c', p', calls, hw⟩ | ⟨pre, step, post, c1, d1, calls1, hsplit, hw, hf⟩
      · rw [hout.1 c' p' calls hw] at h
        simp only [Response.serveFile.injEq] at h
        subst h
        exact ⟨c', calls, hw⟩
      · rcases hf with hf | ⟨e, hf⟩
        · rw [(hout.2 pre step post c1 d1 calls1 hsplit hw).2 hf] at h
          cases h
        · rw [(hout.2 pre step post c1 d1 calls1 hsplit hw).1 e hf] at h
          cases h
    · rintro ⟨c, calls, hw⟩
      rw [hout.1 c p calls hw]
  · intro e
    constructor
    · intro h
      rcases htot with ⟨c', p', calls, hw⟩ | ⟨pre, step, post, c1, d1, calls1, hsplit, hw, hf⟩
      · rw [hout.1 c' p' calls hw] at h
        cases h
      · rcases hf with hf | ⟨e', hf⟩
        · rw [(hout.2 pre step post c1 d1 calls1 hsplit hw).2 hf] at h
          cases h
        · rw [(hout.2 pre step post c1 d1 calls1 hsplit hw).1 e' hf] at h
          simp only [Response.internalServerError.injEq] at h
          subst h
          exact ⟨pre, step, post, c1, d1, calls1, hsplit, hw, hf⟩
    · rintro ⟨pre, step, post, c, d, calls, hsplit, hw, hf⟩
      rw [(hout.2 pre step post c d calls hsplit hw).1 e hf]
  · constructor
    · intro h
      rcases htot with ⟨c', p', calls, hw⟩ | ⟨pre, step, post, c1, d1, calls1, hsplit, hw, hf⟩
      · rw [hout.1 c' p' calls hw] at h
        cases h
      · rcases hf with hf | ⟨e', hf⟩
        · exact ⟨pre, step, post, c1, d1, calls1, hsplit, hw, hf⟩
        · rw [(hout.2 pre step post c1 d1 calls1 hsplit hw).1 e' hf] at h
          cases h
    · rintro ⟨pre, step, post, c, d, calls, hsplit, hw, hf⟩
      rw [(hout.2 pre step post c d calls hsplit hw).2 hf]
  · intro pre step post c d calls hsplit hw hf
    rcases hf with hf | ⟨e, hf⟩
    · rw [(hout.2 pre step post c d calls hsplit hw).2 hf]
      exact ⟨rfl, rfl⟩
    · rw [(hout.2 pre step post c d calls hsplit hw).1 e hf]
      exact ⟨rfl, rfl⟩
  · intro c p calls hw
    rw [hout.1 c p calls hw]
    exact ⟨rfl, rfl⟩

/-! ## C5: the served path descends from the root -/

theorem Cache.peek_mem (c : Cache) (key : String) (v : List String)
    (h : c.peek key = some v) : ∃ e ∈ c.entries, e.2 = v := by
  unfold Cache.peek at h
  cases hf : c.entries.find? (fun e => e.1 == key) with
  | none => simp [hf] at h
  | some e =>
    rw [hf] at h
    simp only [Option.map_some', Option.some.injEq] at h
    exact ⟨e, List.mem_of_find?_eq_some hf, h⟩

theorem Cache.mem_add (c : Cache) (key : String) (v : List String) (e : String × List String)
    (he : e ∈ (c.add key v).entries) : e ∈ c.entries ∨ e = (key, v) := by
  unfold Cache.add at he
  split at he
  · rcases List.mem_cons.mp he with h | h
    · exact Or.inr h
    · exact Or.inl (List.mem_of_mem_filter h)
  · simp only at he
    split at he
    · rcases List.mem_cons.mp (List.dropLast_subset _ he) with h | h
      · exact Or.inr h
      · exact Or.inl h
    · rcases List.mem_cons.mp he with h | h
      · exact Or.inr h
      · exact Or.inl h

/-- The scan selects a name of the listing. -/
theorem scanChildren_mem (T : CaseTables) (fs : FS) (dirPath q : String)
    (p : FileInfo → Bool) (children : List String) (n : String) (stats : List Call)
    (h : scanChildren T fs dirPath q p children = (.ok n, stats)) (hn : n ≠ "") :
    n ∈ children := by
  induction children generalizing stats with
  | nil =>
    simp only [scanChildren, Prod.mk.injEq, Except.ok.injEq] at h
    exact absurd h.1.symm hn
  | cons x xs ih =>
    rw [scanChildren] at h
    split at h
    · simp only at h
      cases hst : fs.stat (Join dirPath x) with
      | error e => simp [hst] at h
      | ok fi =>
        simp only [hst] at h
        split at h
        · simp only [Prod.mk.injEq, Except.ok.injEq] at h
          rw [← h.1]
          exact List.mem_cons_self _ _
        · simp only [Prod.mk.injEq] at h
          exact List.mem_cons_of_mem _
            (ih (scanChildren T fs dirPath q p xs).2 (Prod.ext h.1 rfl))
    · exact List.mem_cons_of_mem _ (ih stats h)

/-- The listing step keeps the names of the cache good and returns good names; without a
cache it returns the sorted names of the directory read. -/
theorem listChildren_good (T : CaseTables) (fs : FS) (cache cache' : Option Cache)
    (dirPath : String) (children : List String) (calls : List Call)
    (hfs : ∀ d raw, fs.readDirnames d = .ok raw → ∀ n ∈ raw, goodName n)
    (hc : CacheGood cache)
    (hl : listChildren T fs cache dirPath = (.ok children, cache', calls)) :
    CacheGood cache' ∧ (∀ n ∈ children, goodName n) ∧
    (cache = none → cache' = none ∧
      ∃ raw, fs.readDirnames dirPath = .ok raw ∧ children = sortStrings raw) := by
  have hfresh : ∀ c0 : Option Cache, CacheGood c0 →
      (match fs.readDirnames dirPath with
        | .error err => ((.error err, c0, [Call.readDirnames dirPath]) :
            Except FsError (List String) × Option Cache × List Call)
        | .ok names => (.ok (sortStrings names),
            c0.map (fun c => c.add (toLower T dirPath) (sortStrings names)),
            [Call.readDirnames dirPath])) = (.ok children, cache', calls) →
      CacheGood cache' ∧ (∀ n ∈ children, goodName n) ∧
      (c0 = none → cache' = none ∧
        ∃ raw, fs.readDirnames dirPath = .ok raw ∧ children = sortStrings raw) := by
    intro c0 hc0 h
    cases hr : fs.readDirnames dirPath with
    | error e => simp [hr] at h
    | ok raw =>
      simp only [hr, Prod.mk.injEq, Except.ok.injEq] at h
      obtain ⟨h1, h2, _⟩ := h
      subst h1
      subst h2
      have hgood : ∀ n ∈ sortStrings raw, goodName n :=
        fun n hn => hfs dirPath raw hr n ((mem_sortStrings raw n).mp hn)
      refine ⟨?_, hgood, ?_⟩
      · intro c hcc e he n hn
        cases c0 with
        | none => simp at hcc
        | some c1 =>
          simp only [Option.map_some', Option.some.injEq] at hcc
          subst hcc
          rcases Cache.mem_add c1 _ _ e he with h | h
          · exact hc0 c1 rfl e h n hn
          · subst h
            exact hgood n hn
      · intro h0
        subst h0
        exact ⟨rfl, raw, rfl, rfl⟩
  unfold listChildren at hl
  cases cache with
  | none => exact hfresh none hc hl
  | some c =>
    simp only at hl
    split at hl
    · cases hpk : c.peek (toLower T dirPath) with
      | none =>
        simp only [Cache.get, hpk] at hl
        exact hfresh (some c) hc hl
      | some v =>
        simp only [Cache.get, hpk, Prod.mk.injEq, Except.ok.injEq] at hl
        obtain ⟨h1, h2, _⟩ := hl
        subst h1
        subst h2
        obtain ⟨e0, he0, hv⟩ := Cache.peek_mem c _ _ hpk
        have hvgood : ∀ n ∈ v, goodName n := by
          intro n hn
          rw [← hv] at hn
          exact hc c rfl e0 he0 n hn
        refine ⟨?_, hvgood, by simp⟩
        intro c1 hc1 e he n hn
        simp only [Option.some.injEq] at hc1
        subst hc1
        rcases List.mem_cons.mp he with h | h
        · subst h
          exact hvgood n hn
        · exact hc c rfl e (List.mem_of_mem_filter h) n hn
    · exact hfresh (some c) hc hl

/-- A successful `resolveComponent` call returns the directory joined with a name of the
listing it obtained. -/
theorem resolveComponent_ok (T : CaseTables) (fs : FS) (cache : Option Cache)
    (dirPath q : String) (p : FileInfo → Bool) (path : String)
    (h : (resolveComponent T fs cache dirPath q p).result = .ok path) (hne : path ≠ "") :
    ∃ children calls n,
      listChildren T fs cache dirPath
        = (.ok children, (resolveComponent T fs cache dirPath q p).cache, calls) ∧
      n ∈ children ∧ path = Join dirPath n := by
  rcases hlc : listChildren T fs cache dirPath with ⟨l1, cache', calls⟩
  cases l1 with
  | error e =>
    simp [resolveComponent, hlc] at h
  | ok children =>
    rcases hs : scanChildren T fs dirPath q p children with ⟨r, stats⟩
    cases r with
    | error e =>
      simp [resolveComponent, hlc, hs] at h
    | ok n =>
      have heq := resolveComponent_eq T fs cache cache' dirPath q p children calls stats n hlc hs
      rw [heq] at h ⊢
      simp only [Except.ok.injEq] at h
      by_cases hn : n = ""
      · rw [if_pos hn] at h
        exact absurd h.symm hne
      · rw [if_neg hn] at h
        exact ⟨children, calls, n, rfl, scanChildren_mem T fs dirPath q p children n stats hs hn,
          h.symm⟩

/-- Steps that all succeed descend by one listed name each. -/
theorem walk_descends (T : CaseTables) (fs : FS)
    (hfs : ∀ d raw, fs.readDirnames d = .ok raw → ∀ n ∈ raw, goodName n)
    (steps : List Step) (c c' : Option Cache) (d p : String) (calls : List Call)
    (hw : walk T fs c d steps = some (c', p, calls)) (hc : CacheGood c) :
    ∃ names, names.length = steps.length ∧ p = names.foldl Join d ∧
      Descends T fs c d names p ∧ (∀ n ∈ names, goodName n) ∧
      (c = none → ListedChain fs d names) := by
  induction steps generalizing c d calls with
  | nil =>
    simp only [walk, Option.some.injEq, Prod.mk.injEq] at hw
    obtain ⟨_, rfl, _⟩ := hw
    exact ⟨[], rfl, rfl, Descends.here c d, by simp, fun _ => trivial⟩
  | cons x xs ih =>
    simp only [walk] at hw
    cases hr : (resolveComponent T fs c d x.1 x.2).result with
    | error e => simp [hr] at hw
    | ok q =>
      simp only [hr] at hw
      by_cases hq : q = ""
      · simp [hq] at hw
      · simp only [hq, if_false] at hw
        cases hw2 : walk T fs (resolveComponent T fs c d x.1 x.2).cache q xs with
        | none => simp [hw2] at hw
        | some t =>
          obtain ⟨c2, d2, calls2⟩ := t
          simp only [hw2, Option.some.injEq, Prod.mk.injEq] at hw
          obtain ⟨rfl, rfl, _⟩ := hw
          obtain ⟨children, lcalls, n, hl, hn, hjoin⟩ :=
            resolveComponent_ok T fs c d x.1 x.2 q hr hq
          obtain ⟨hgood', hchildren, hnone⟩ :=
            listChildren_good T fs c _ d children lcalls hfs hc hl
          obtain ⟨names, hlen, hfold, hdesc, hnames, hchain⟩ := ih _ _ _ hw2 hgood'
          subst hjoin
          refine ⟨n :: names, by simp [hlen], by simpa using hfold,
            Descends.step c _ d children lcalls n names d2 hl hn hdesc, ?_, ?_⟩
          · intro m hm
            rcases List.mem_cons.mp hm with h | h
            · subst h
              exact hchildren m hn
            · exact hnames m h
          · intro h0
            obtain ⟨hc0, raw, hread, hsorted⟩ := hnone h0
            refine ⟨⟨raw, hread, ?_⟩, hchain hc0⟩
            rw [hsorted] at hn
            exact (mem_sortStrings raw n).mp hn

/-- C5. On a tree whose listings (those of the directories and those held by the cache) contain
no `.`, no `..` and no name with a separator, for every request path: when `serveFile` hands
a path to `http.ServeFile`, that path is the root joined in turn with names `n1 .. nk`
(`k ≥ 1`), each an entry of the listing that `resolveComponent` obtained for the directory
reached before it; none of the names is `.` or `..` or contains a separator; and with the
cache disabled each name is an entry of what the filesystem lists for that directory. -/
theorem serveFile_descends (T : CaseTables) (fs : FS) (s : Server) (urlPath p : String)
    (hfs : ∀ d raw, fs.readDirnames d = .ok raw → ∀ n ∈ raw, goodName n)
    (hc : CacheGood s.cache)
    (h : (serveFile T fs s urlPath).response = .serveFile p) :
    ∃ names, names ≠ [] ∧ p = names.foldl Join s.root ∧
      Descends T fs s.cache s.root names p ∧
      (∀ n ∈ names, goodName n) ∧
      (s.cache = none → ListedChain fs s.root names) := by
  rw [serveFile_eq_runSteps] at h
  have hout := runSteps_outcome T fs
    (requestSteps (requestSegments urlPath).1 (requestSegments urlPath).2) s.cache s.root
  rcases walk_total T fs
    (requestSteps (requestSegments urlPath).1 (requestSegments urlPath).2) s.cache s.root with
    ⟨c', p', calls, hw⟩ | ⟨pre, step, post, c1, d1, calls1, hsplit, hw, hf⟩
  · rw [hout.1 c' p' calls hw] at h
    simp only [Response.serveFile.injEq] at h
    subst h
    obtain ⟨names, hlen, hfold, hdesc, hnames, hchain⟩ :=
      walk_descends T fs hfs _ s.cache c' s.root p' calls hw hc
    refine ⟨names, ?_, hfold, hdesc, hnames, hchain⟩
    intro h0
    rw [h0] at hlen
    simp [requestSteps] at hlen
  · rcases hf with hf | ⟨e, hf⟩
    · rw [(hout.2 pre step post c1 d1 calls1 hsplit hw).2 hf] at h
      cases h
    · rw [(hout.2 pre step post c1 d1 calls1 hsplit hw).1 e hf] at h
      cases h

/-- C5 at the request `/../docs/./readme.txt` on the example tree with the cache disabled:
the path served is `/srv/Docs/Readme.TXT`, the root joined with listed names. -/
theorem serveFile_descends_witness :
    (serveFile goTables fsDocs ⟨"/srv", none⟩ "/../docs/./readme.txt").response
      = .serveFile "/srv/Docs/Readme.TXT" ∧
    ∃ names, names ≠ [] ∧ "/srv/Docs/Readme.TXT" = names.foldl Join "/srv" ∧
      Descends goTables fsDocs none "/srv" names "/srv/Docs/Readme.TXT" ∧
      (∀ n ∈ names, goodName n) ∧
      ((none : Option Cache) = none → ListedChain fsDocs "/srv" names) :=
  ⟨by decide,
    serveFile_descends goTables fsDocs ⟨"/srv", none⟩ "/../docs/./readme.txt"
      "/srv/Docs/Readme.TXT"
      (by
        intro d raw h
        simp only [fsDocs] at h
        split at h
        · cases h; decide
        · split at h
          · cases h; decide
          · cases h)
      (by intro c h; cases h)
      (by decide)⟩

/-! ## C1: request paths that differ only in case -/

theorem splitSep_ne_nil (s : List Char) : splitSep s ≠ [] := by
  cases s with
  | nil => simp [splitSep]
  | cons c cs =>
    rw [splitSep]
    split
    · simp
    · cases splitSep cs <;> simp

theorem splitSep_no_sep (s : List Char) (h : '/' ∉ s) : splitSep s = [s] := by
  induction s with
  | nil => rfl
  | cons c cs ih =>
    have hc : c ≠ '/' := fun h0 => h (by rw [h0]; exact List.mem_cons_self _ _)
    have hcs : '/' ∉ cs := fun h0 => h (List.mem_cons_of_mem _ h0)
    rw [splitSep, if_neg hc, ih hcs]

theorem splitSep_append (a b : List Char) :
    splitSep (a ++ '/' :: b) = splitSep a ++ splitSep b := by
  induction a with
  | nil => simp [splitSep]
  | cons c cs ih =>
    rw [List.cons_append, splitSep, splitSep, ih]
    split
    · rfl
    · cases h : splitSep cs with
      | nil => exact absurd h (splitSep_ne_nil cs)
      | cons x xs => rfl

/-- A path either holds no separator or splits at its last one. -/
theorem last_sep (s : List Char) :
    '/' ∉ s ∨ ∃ a b, s = a ++ '/' :: b ∧ '/' ∉ b := by
  induction s with
  | nil => left; simp
  | cons c cs ih =>
    rcases ih with h | ⟨a, b, hab, hb⟩
    · by_cases hc : c = '/'
      · right
        exact ⟨[], cs, by rw [hc]; rfl, h⟩
      · left
        intro h0
        rcases List.mem_cons.mp h0 with h1 | h1
        · exact hc h1.symm
        · exact h h1
    · right
      exact ⟨c :: a, b, by rw [hab]; rfl, hb⟩

theorem takeWhile_prefix {α : Type} (p : α → Bool) (x : List α) (y : α) (z : List α)
    (hx : ∀ a ∈ x, p a = true) (hy : p y = false) :
    (x ++ y :: z).takeWhile p = x ∧ (x ++ y :: z).dropWhile p = y :: z := by
  induction x with
  | nil => simp [List.takeWhile, List.dropWhile, hy]
  | cons a t ih =>
    have ha := hx a (List.mem_cons_self _ _)
    have ht := ih (fun b hb => hx b (List.mem_cons_of_mem _ hb))
    simp [List.takeWhile, List.dropWhile, ha, ht.1, ht.2]

theorem Split_no_sep (s : List Char) (h : '/' ∉ s) :
    s.rdropWhile (fun c => c != '/') = [] ∧ s.rtakeWhile (fun c => c != '/') = s := by
  have hall : ∀ a ∈ s.reverse, (fun c : Char => c != '/') a = true := by
    intro a ha
    have : a ≠ '/' := fun h0 => h (by rw [← h0]; exact List.mem_reverse.mp ha)
    simpa using this
  constructor
  · rw [List.rdropWhile, List.dropWhile_eq_nil_iff.mpr hall]
    rfl
  · rw [List.rtakeWhile, List.takeWhile_eq_self_iff.mpr hall, List.reverse_reverse]

theorem Split_last_sep (a b : List Char) (hb : '/' ∉ b) :
    (a ++ '/' :: b).rdropWhile (fun c => c != '/') = a ++ ['/'] ∧
    (a ++ '/' :: b).rtakeWhile (fun c => c != '/') = b := by
  have hrev : (a ++ '/' :: b).reverse = b.reverse ++ '/' :: a.reverse := by simp
  have hall : ∀ x ∈ b.reverse, (fun c : Char => c != '/') x = true := by
    intro x hx
    have : x ≠ '/' := fun h0 => hb (by rw [← h0]; exact List.mem_reverse.mp hx)
    simpa using this
  have h := takeWhile_prefix (fun c : Char => c != '/') b.reverse '/' a.reverse hall (by simp)
  constructor
  · rw [List.rdropWhile, hrev, h.2]
    simp
  · rw [List.rtakeWhile, hrev, h.1, List.reverse_reverse]

theorem trimSlash_concat (a : List Char) : trimSlash (a ++ ['/']) = a := by
  simp [trimSlash]

/-- The segments `serveFile` extracts, in terms of the pieces of the cleaned path between
separators: the final segment is the last piece (or `index.html` when that is empty), the
directory segments are the pieces before it except the first one. -/
theorem requestSegments_eq (urlPath : String) :
    requestSegments urlPath =
      (((stringsSplit (Clean urlPath)).dropLast).drop 1,
        if (stringsSplit (Clean urlPath)).getLastD "" = "" then "index.html"
        else (stringsSplit (Clean urlPath)).getLastD "") := by
  unfold requestSegments
  simp only
  generalize Clean urlPath = s
  obtain ⟨P⟩ := s
  simp only [Split, stringsSplit, trimSuffixSlash]
  rcases last_sep P with h | ⟨a, b, rfl, hb⟩
  · rw [(Split_no_sep P h).1, (Split_no_sep P h).2, splitSep_no_sep P h]
    simp [trimSlash, splitSep]
  · rw [(Split_last_sep a b hb).1, (Split_last_sep a b hb).2, trimSlash_concat,
      splitSep_append, splitSep_no_sep b hb]
    simp

theorem equalFold_symm (T : CaseTables) (a b : String) : equalFold T a b = equalFold T b a := by
  unfold equalFold
  by_cases h : a.data.map T.fold = b.data.map T.fold
  · rw [h]
  · have h' : ¬ b.data.map T.fold = a.data.map T.fold := fun h0 => h h0.symm
    rw [beq_eq_false_iff_ne.mpr h, beq_eq_false_iff_ne.mpr h']

theorem scanChildren_congr (T : CaseTables) (fs : FS) (dirPath q q' : String)
    (p : FileInfo → Bool) (h : ∀ c, equalFold T c q = equalFold T c q')
    (children : List String) :
    scanChildren T fs dirPath q p children = scanChildren T fs dirPath q' p children := by
  induction children with
  | nil => rfl
  | cons x xs ih => rw [scanChildren, scanChildren, h x, ih]

theorem resolveComponent_congr (T : CaseTables) (fs : FS) (cache : Option Cache)
    (dirPath q q' : String) (p : FileInfo → Bool)
    (h : ∀ c, equalFold T c q = equalFold T c q') :
    resolveComponent T fs cache dirPath q p = resolveComponent T fs cache dirPath q' p := by
  unfold resolveComponent
  rcases listChildren T fs cache dirPath with ⟨l, c', calls⟩
  cases l with
  | error e => rfl
  | ok children =>
    simp only
    rw [scanChildren_congr T fs dirPath q q' p h children]

theorem resolveFrom_congr (T : CaseTables) (fs : FS) (file file' : String)
    (hfile : ∀ c, equalFold T c file = equalFold T c file') (dirs dirs' : List String)
    (hdirs : List.Forall₂ (fun a b => equalFold T a b = true) dirs dirs')
    (cache : Option Cache) (d : String) :
    resolveFrom T fs file cache d dirs = resolveFrom T fs file' cache d dirs' := by
  induction hdirs generalizing cache d with
  | nil =>
    simp only [resolveFrom, resolveFile]
    rw [resolveComponent_congr T fs cache d file file' isFilePredicate hfile]
  | @cons a b l l' hab _ ih =>
    simp only [resolveFrom]
    rw [resolveComponent_congr T fs cache d a b isDirPredicate (equalFold_congr T a b hab)]
    cases (resolveComponent T fs cache d b isDirPredicate).result with
    | error e => rfl
    | ok p =>
      simp only
      split
      · rfl
      · rw [ih]

theorem forall₂_dropLast {α : Type} (R : α → α → Prop) (l l' : List α)
    (h : List.Forall₂ R l l') :
    List.Forall₂ R l.dropLast l'.dropLast ∧
      ∀ x x', R x x' → R (l.getLastD x) (l'.getLastD x') := by
  induction h with
  | nil => exact ⟨List.Forall₂.nil, fun x x' hx => hx⟩
  | @cons a b t t' hab hl ih =>
    constructor
    · cases hl with
      | nil => exact List.Forall₂.nil
      | cons hcd ht =>
        simp only [List.dropLast]
        exact List.Forall₂.cons hab ih.1
    · intro x x' _
      rw [List.getLastD_cons, List.getLastD_cons]
      exact ih.2 a b hab

theorem forall₂_drop_one {α : Type} (R : α → α → Prop) (l l' : List α)
    (h : List.Forall₂ R l l') : List.Forall₂ R (l.drop 1) (l'.drop 1) := by
  cases h with
  | nil => exact List.Forall₂.nil
  | cons _ ht => exact ht

/-- C1. Two request paths whose cleaned forms have the same number of segments (the pieces
between separators), corresponding segments being equal ignoring case, are handled alike by
`serveFile` on the same server state: the same response (the same final path in its on-disk
spelling, or 404, or 500 with the same error), the same filesystem calls and the same cache
afterwards. -/
theorem serveFile_case_variants (T : CaseTables) (fs : FS) (s : Server) (p p' : String)
    (h : List.Forall₂ (fun a b => equalFold T a b = true)
      (stringsSplit (Clean p)) (stringsSplit (Clean p'))) :
    serveFile T fs s p = serveFile T fs s p' := by
  unfold serveFile
  rw [requestSegments_eq p, requestSegments_eq p']
  simp only
  obtain ⟨hdrop, hlast⟩ := forall₂_dropLast _ _ _ h
  have hdirs := forall₂_drop_one _ _ _ hdrop
  have hl : equalFold T ((stringsSplit (Clean p)).getLastD "")
      ((stringsSplit (Clean p')).getLastD "") = true :=
    hlast "" "" (by simp [equalFold])
  generalize (stringsSplit (Clean p)).getLastD "" = f at hl ⊢
  generalize (stringsSplit (Clean p')).getLastD "" = f' at hl ⊢
  apply resolveFrom_congr T fs _ _ _ _ _ hdirs
  by_cases hf : f = ""
  · subst hf
    have hf' : f' = "" := equalFold_empty T f' hl
    subst hf'
    intro c
    rfl
  · have hf' : f' ≠ "" := by
      intro h0
      subst h0
      rw [equalFold_symm] at hl
      exact hf (equalFold_empty T f hl)
    rw [if_neg hf, if_neg hf']
    exact equalFold_congr T f f' hl

/-- C1 at the requests `/docs/readme.txt` and `/DOCS/./ReadMe.Txt` on the example tree: both
are served `/srv/Docs/Readme.TXT`. -/
theorem serveFile_case_variants_witness :
    (serveFile goTables fsDocs ⟨"/srv", none⟩ "/DOCS/./ReadMe.Txt").response
      = .serveFile "/srv/Docs/Readme.TXT" ∧
    serveFile goTables fsDocs ⟨"/srv", none⟩ "/docs/readme.txt" =
      serveFile goTables fsDocs ⟨"/srv", none⟩ "/DOCS/./ReadMe.Txt" :=
  ⟨by decide,
    serveFile_case_variants goTables fsDocs ⟨"/srv", none⟩ "/docs/readme.txt"
      "/DOCS/./ReadMe.Txt" (by decide)⟩

end Cihttp
